import Mathlib

/-!
Shallow embedding of `sites/layerloot/scripts/fetch-deal-images.mjs`.

The script enriches deal records with product images: for each record
without an `image`, it fetches the page, runs a chain of extractor
heuristics over the parsed document, absolutizes and filters the chosen
candidate, downloads it, re-tries once with a generic-scan alternate when
the download is degenerate (undecodable or under 10000 square pixels),
normalizes, writes the file, and records the local path; the catalog is
rewritten once at the end when anything changed.

Modelling conventions:
  - JavaScript values flowing through the extractors are modelled by the
    inductive `JVal` together with JS truthiness (`truthy`).
  - The WHATWG URL constructor (`new URL(input, base)`) is an oracle
    parameter `resolve : String -> Option String -> Option String`
    (`none` models a thrown TypeError, `some href` a success); likewise
    `new URL(u).hostname` is the oracle `hostnameOf`.
  - Network and sharp effects are an oracle record `Net` whose operations
    return `Except String _` (`error` models a thrown exception) or
    `Option` where the source catches locally.
  - Regular-expression tests from the source are translated to explicit
    executable string scans, documented at each definition.
  - Buffers are opaque tokens, modelled as `String`.
-/

set_option autoImplicit false

namespace FetchDealImages

/-- Minimal model of a JavaScript/JSON value as it flows through this
script: enough structure to express the property reads, `typeof` and
`Array.isArray` tests, and truthiness checks the source performs. -/
inductive JVal where
  | null
  | bool (b : Bool)
  | num (n : Int)
  | str (s : String)
  | arr (xs : List JVal)
  | obj (fs : List (String × JVal))

/-- JS truthiness for the modelled values (`NaN` is not modelled; the
script never produces one on the paths the claims concern). -/
def truthy : JVal → Bool
  | .null => false
  | .bool b => b
  | .num n => decide (n ≠ 0)
  | .str s => decide (s ≠ "")
  | .arr _ => true
  | .obj _ => true

/-- First binding of a key in an object literal. JSON.parse keeps the
last duplicate key; duplicate keys do not occur in the inputs considered
here, so first-wins is an adequate model. -/
def lookupField : List (String × JVal) → String → JVal
  | [], _ => .null
  | (k, v) :: rest, key => if k = key then v else lookupField rest key

/-- JS property access `v[k]`: a missing property and a null property are
both modelled as `JVal.null` (every use in the source either guards with
truthiness or with a type test that rejects both). -/
def getProp : JVal → String → JVal
  | .obj fs, k => lookupField fs k
  | _, _ => .null

/-- The `typeof x === "object"` test of JS: objects, arrays and null. -/
def isObjLike : JVal → Bool
  | .obj _ => true
  | .arr _ => true
  | .null => true
  | _ => false

/-- Truthiness of an optional attribute value, as cheerio returns it:
`undefined` when absent, the raw string otherwise. -/
def attrTruthy : Option String → Bool
  | some s => decide (s ≠ "")
  | none => false

-- ---------- string scans standing in for the regular expressions ----------

/-- Prefix test on raw characters, standing in for `String.prototype.startsWith`. -/
def strStartsWith (s p : String) : Bool :=
  p.data.isPrefixOf s.data

/-- Executable infix test on character lists: `pat` occurs contiguously
somewhere in the second list. -/
def infixOf (pat : List Char) : List Char → Bool
  | [] => pat.isEmpty
  | c :: t => pat.isPrefixOf (c :: t) || infixOf pat t

/-- Character data of a string lowercased characterwise, standing in
for the case folding of the case-insensitive regex flag (ASCII inputs
only reach these tests). -/
def lowerData (s : String) : List Char :=
  s.data.map Char.toLower

/-- Case-insensitive infix test, standing in for an unanchored
case-insensitive regex literal with no metacharacters. -/
def containsCI (hay needle : String) : Bool :=
  infixOf (lowerData needle) (lowerData hay)

/-- Suffix of `l` after the first occurrence of `pat`, `none` when `pat`
does not occur. Used to translate regexes of shape `A.*B.*C`: matching
the earliest occurrence of each literal left to right is equivalent to
the existence of any decomposition. -/
def afterSub : List Char → List Char → Option (List Char)
  | [], pat => if pat.isEmpty then some [] else none
  | c :: t, pat =>
    if pat.isPrefixOf (c :: t) then some ((c :: t).drop pat.length)
    else afterSub t pat

/-- Translation of `/fls-.*\.amazon\.com\/.*batch/i.test(u)`. The regex
dot is modelled as matching any character; URL strings reaching this test
contain no newlines. -/
def flsBatchTest (u : String) : Bool :=
  match afterSub (lowerData u) "fls-".data with
  | some r1 =>
    match afterSub r1 ".amazon.com/".data with
    | some r2 => infixOf "batch".data r2
    | none => false
  | none => false

/-- `isTrackingPixelUrl(u)`: the fls-batch beacon pattern or a generic
case-insensitive `pixel` substring. -/
def isTrackingPixelUrl (u : String) : Bool :=
  flsBatchTest u || infixOf "pixel".data (lowerData u)

/-- Translation of `/^data:/i.test(u)`. -/
def isDataUrl (u : String) : Bool :=
  "data:".data.isPrefixOf (lowerData u)

/-- Scheme recognizer on characters: a letter followed by
letters/digits/plus/minus/dot up to a colon, the shape every absolute
URL (every `new URL(...).href`) starts with. -/
def schemeRest : List Char → Bool
  | [] => false
  | c :: rest =>
    if c = ':' then true
    else (c.isAlphanum || c = '+' || c = '-' || c = '.') && schemeRest rest

/-- A string that begins with a URL scheme, i.e. is an absolute URL
reference rather than a relative or protocol-relative one. -/
def hasScheme (s : String) : Bool :=
  match s.data with
  | [] => false
  | c :: rest => c.isAlpha && schemeRest rest

-- ---------- URL utilities from the source ----------

/-- `absolutize(url, base)`: empty input gives nothing, protocol-relative
input is promoted to https, http(s)-prefixed input is returned verbatim,
anything else is resolved by the URL constructor, whose failure (a throw,
caught by the source) is `none`. The JS parameter `base` may be
`undefined` (the delegation inside the marketplace extractor), hence
`Option String`. -/
def absolutize (resolve : String → Option String → Option String)
    (url : String) (base : Option String) : Option String :=
  if url = "" then none
  else if strStartsWith url "//" then some ("https:" ++ url)
  else if strStartsWith url "http://" || strStartsWith url "https://" then some url
  else resolve url base

/-- The call `absolutize(imgUrl, base)` in `main`, where `imgUrl` may be
any value produced by the picker chain: a falsy value returns null at the
`!url` guard, and a truthy non-string throws at `url.startsWith` inside
the try block, which the catch turns into null. -/
def absolutizeJ (resolve : String → Option String → Option String)
    (v : JVal) (base : Option String) : Option String :=
  match v with
  | .str s => absolutize resolve s base
  | _ => none

/-- `isAmazonUrl(u)`: hostname of `u` (via the URL constructor oracle;
a throw gives false) tested against `/(^|\.)amazon\./i`, i.e. the
lowercased hostname starts with `amazon.` or contains `.amazon.`. -/
def isAmazonUrl (hostnameOf : String → Option String) (u : String) : Bool :=
  match hostnameOf u with
  | some h => "amazon.".data.isPrefixOf (lowerData h)
      || infixOf ".amazon.".data (lowerData h)
  | none => false

-- ---------- parsed-document model ----------

/-- One of the marketplace landmark image elements (`#landingImage`, or
the image inside `#imgTagWrapperId`), by the three attributes the source
reads. `dyn` models the `data-a-dynamic-image` attribute by the entry
list of its parsed JSON object, in encounter order; an absent, empty or
unparsable attribute is `none` (all three are observationally the same
in the source: nothing is contributed). -/
structure LandmarkEl where
  src : Option String
  oldHires : Option String
  dyn : Option (List (String × JVal))

/-- One `img` element as seen by the generic scan, by the three
attributes the source reads; `dyn` as in `LandmarkEl`. -/
structure ImgEl where
  src : Option String
  srcset : Option String
  dyn : Option (List (String × JVal))

/-- Parsed HTML document, restricted to the queries the script performs:
the five meta-tag selectors of `pickOgImage` (value of the `content`
attribute, `none` when the selector matches nothing), the ld+json script
blocks (`none` for an empty text or a JSON.parse failure, otherwise the
parsed value), the `img[src], img[srcset]` element list in document
order (all img elements; presence of the attributes decides selection),
and the two marketplace landmark elements. -/
structure Doc where
  ogImage : Option String
  ogImageUrl : Option String
  metaOgImage : Option String
  twitterImage : Option String
  twitterImageSrc : Option String
  ldBlocks : List (Option JVal)
  imgs : List ImgEl
  landingImage : Option LandmarkEl
  imgWrapperImg : Option LandmarkEl

-- ---------- pickers ----------

/-- First truthy attribute value of a selector list, as a JS value. -/
def firstAttr : List (Option String) → JVal
  | [] => .null
  | some s :: rest => if s ≠ "" then .str s else firstAttr rest
  | none :: rest => firstAttr rest

/-- `pickOgImage($)`: first truthy `content` among the five meta
selectors, in their fixed order. -/
def pickOgImage (doc : Doc) : JVal :=
  firstAttr [doc.ogImage, doc.ogImageUrl, doc.metaOgImage,
             doc.twitterImage, doc.twitterImageSrc]

/-- The inner helper `pull(obj)` of `pickFromLdJson`: a string `image`
field, else the first element of a non-empty array `image` field, else a
string `image` inside a truthy object-typed `offers`, else null. -/
def pull (v : JVal) : JVal :=
  if truthy v = false then .null
  else
    match getProp v "image" with
    | .str s => .str s
    | .arr (x :: _) => x
    | _ =>
      let off := getProp v "offers"
      if truthy off && isObjLike off then
        match getProp off "image" with
        | .str s => .str s
        | _ => .null
      else .null

/-- The loop over the items of a top-level ld+json array: first item
whose pulled value is truthy. -/
def pullList : List JVal → JVal
  | [] => .null
  | x :: rest =>
    let f := pull x
    if truthy f then f else pullList rest

/-- `pickFromLdJson($)`: scan the ld+json blocks in order, skipping
empty or unparsable ones; for each parsed value take its pulled value if
truthy, else (when the value is an array) the first truthy pulled item;
otherwise continue with the next block. -/
def pickFromLdJson : List (Option JVal) → JVal
  | [] => .null
  | none :: rest => pickFromLdJson rest
  | some data :: rest =>
    let found := pull data
    if truthy found then found
    else
      match data with
      | .arr items =>
        let f := pullList items
        if truthy f then f else pickFromLdJson rest
      | _ => pickFromLdJson rest

/-- URL portions of a `srcset` attribute: split at commas, trim, keep
the part before the first space, drop empties. -/
def srcsetUrls (ss : String) : List String :=
  ((ss.splitOn ",").map (fun s => ((s.trim).splitOn " ").headD "")).filter
    (fun x => x ≠ "")

/-- Raw candidate URLs contributed by one img element: a truthy `src`,
then each srcset entry, then the keys of the parsed dynamic-image map. -/
def imgElCandidates (el : ImgEl) : List String :=
  (match el.src with
   | some s => if s ≠ "" then [s] else []
   | none => [])
  ++ (match el.srcset with
      | some ss => if ss ≠ "" then srcsetUrls ss else []
      | none => [])
  ++ (match el.dyn with
      | some entries => entries.map (fun e => e.1)
      | none => [])

/-- All raw candidates of the generic scan, from the elements matching
`img[src], img[srcset]`, in document order. -/
def rawCandidates (doc : Doc) : List String :=
  ((doc.imgs.filter (fun el => el.src.isSome || el.srcset.isSome)).map
    imgElCandidates).flatten

/-- Preference test of the generic scan:
`/m\.media-amazon\.com\/images\//i.test(u)`. -/
def mediaAmazon (u : String) : Bool :=
  containsCI u "m.media-amazon.com/images/"

/-- The `candidates` list of `pickFirstLargeImg` after the map/filter
pass: absolutize every raw candidate against `base`, drop failures,
empties, tracking pixels and data URLs. -/
def survivingCandidates (resolve : String → Option String → Option String)
    (doc : Doc) (base : Option String) : List String :=
  (((rawCandidates doc).map
      (fun raw => absolutize resolve raw base)).filterMap id).filter
      (fun u => u ≠ "" && !isTrackingPixelUrl u && !isDataUrl u)

/-- `pickFirstLargeImg($, baseUrl)`: the first surviving candidate
hosted on the Amazon media CDN if any, otherwise the first survivor. -/
def pickFirstLargeImg (resolve : String → Option String → Option String)
    (doc : Doc) (base : Option String) : Option String :=
  match (survivingCandidates resolve doc base).find? mediaAmazon with
  | some p => some p
  | none => (survivingCandidates resolve doc base).head?

/-- Lift of a picker returning a nullable string into a JS value. -/
def jOfOpt : Option String → JVal
  | some s => .str s
  | none => .null

/-- Numeric coercion `(x || 0)` applied to a dynamic-image dimension: a
number is itself, everything else contributes 0. (The source would
coerce a truthy non-number through JS multiplication; the inputs the
claims concern carry numbers or omit the entry.) -/
def jnum : JVal → Int
  | .num n => n
  | _ => 0

/-- Area of one dynamic-image map entry value: destructure
`[w, h]` when the value is an array (missing positions are undefined,
hence 0), area 0 for any non-array value. -/
def dynArea : JVal → Int
  | .arr (a :: b :: _) => jnum a * jnum b
  | _ => 0

/-- Accumulator loop choosing the entry with the strictly largest area
in the parsed dynamic-image map (`best`/`bestArea` of the source). -/
def pickDynGo : List (String × JVal) → Option String → Int → Option String
  | [], best, _ => best
  | (u, v) :: rest, best, bestArea =>
    let area := dynArea v
    if bestArea < area then pickDynGo rest (some u) area
    else pickDynGo rest best bestArea

/-- The dynamic-image map selection of `tryEl`: entry with the strictly
largest area, starting from no entry and area 0. -/
def pickDynBest (es : List (String × JVal)) : Option String :=
  pickDynGo es none 0

/-- The inner helper `tryEl(el)` of `pickAmazonImage`: nothing for an
absent element; else a truthy `data-old-hires`, else a truthy `src`,
else the largest-area key of the parsed `data-a-dynamic-image` map when
that key is truthy; else null. -/
def tryEl : Option LandmarkEl → JVal
  | none => .null
  | some el =>
    if attrTruthy el.oldHires then .str (el.oldHires.getD "")
    else if attrTruthy el.src then .str (el.src.getD "")
    else
      match el.dyn with
      | some entries =>
        match pickDynBest entries with
        | some best => if best ≠ "" then .str best else .null
        | none => .null
      | none => .null

/-- `pickAmazonImage`: first landmark (`#landingImage`) if it yields a
truthy pick, else the wrapper image, else the generic scan with no base
URL (`pickFirstLargeImg($)`). -/
def pickAmazonImage (resolve : String → Option String → Option String)
    (doc : Doc) : JVal :=
  if truthy (tryEl doc.landingImage) then tryEl doc.landingImage
  else if truthy (tryEl doc.imgWrapperImg) then tryEl doc.imgWrapperImg
  else jOfOpt (pickFirstLargeImg resolve doc none)

-- ---------- catalog updater (main) ----------

/-- One catalog record, by the five fields the script reads or writes.
JSON-absent fields are modelled as the empty string, which is exactly
their falsiness in every guard of the source. -/
structure Deal where
  id : String
  url : String
  image : String
  imageAlt : String
  title : String
deriving DecidableEq, Repr

/-- Decoded image metadata as returned by `sharp(buf).metadata()`:
either dimension may be absent. -/
structure Meta where
  width : Option Nat
  height : Option Nat
deriving DecidableEq, Repr

/-- Truthiness of a metadata dimension: present and nonzero. -/
def truthyDim : Option Nat → Bool
  | some n => decide (n ≠ 0)
  | none => false

/-- The degeneracy test of the validate step:
`!meta || (meta.width && meta.height && meta.width * meta.height < 10_000)`.
A failed decode (the local catch set `meta = null`) is degenerate; a
decode lacking a dimension (or with a zero dimension) is not; a decode
with both dimensions truthy is degenerate exactly when the area is below
10000. -/
def degenerateMeta : Option Meta → Bool
  | none => true
  | some m =>
    truthyDim m.width && truthyDim m.height
      && decide ((m.width.getD 0) * (m.height.getD 0) < 10000)

/-- Buffers are opaque tokens. -/
def Buf := String
deriving instance DecidableEq, Repr for Buf

/-- Effect oracles of one run: page fetch plus cheerio parse, image
download, metadata decode (`none` models the locally caught throw),
normalization (`sharp(...).resize(...).webp(...).toBuffer()`), and the
image file write keyed by the output file name. An `error` result models
a thrown exception reaching the per-record catch. -/
structure Net where
  fetchDoc : String → Except String Doc
  getBuffer : String → Except String Buf
  metadata : Buf → Option Meta
  normalize : Buf → Except String Buf
  writeImage : String → Buf → Except String Unit

/-- JS `a || b`. -/
def jOr (a b : JVal) : JVal :=
  if truthy a then a else b

/-- The picker chain of `main`: the marketplace chain when the record
URL is an Amazon URL, the generic chain otherwise. -/
def chainResult (resolve : String → Option String → Option String)
    (hostnameOf : String → Option String) (doc : Doc) (url : String) : JVal :=
  if isAmazonUrl hostnameOf url then
    jOr (pickAmazonImage resolve doc)
      (jOr (pickOgImage doc)
        (jOr (pickFromLdJson doc.ldBlocks)
          (jOfOpt (pickFirstLargeImg resolve doc (some url)))))
  else
    jOr (pickOgImage doc)
      (jOr (pickFromLdJson doc.ldBlocks)
        (jOfOpt (pickFirstLargeImg resolve doc (some url))))

/-- Observable outcome of processing one record: the resulting record,
whether the record fully succeeded (the source then sets `changed`), the
page URLs fetched, the image URLs downloaded in order, and whether the
degenerate branch re-ran the generic extractor. -/
structure StepResult where
  deal : Deal
  ok : Bool
  fetches : List String
  downloads : List String
  fallbackScan : Bool
deriving DecidableEq, Repr

/-- Tail of the record body after the buffer to keep is fixed:
normalize, write the file `<id>.webp`, then set `image` to
`/images/<id>.webp` and `imageAlt` to the existing value or the title;
a throw in either step reaches the per-record catch, leaving the record
untouched. -/
def finishStep (net : Net) (d : Deal) (buf : Buf) (dls : List String)
    (fb : Bool) : StepResult :=
  match net.normalize buf with
  | .error _ => ⟨d, false, [d.url], dls, fb⟩
  | .ok webp =>
    match net.writeImage (d.id ++ ".webp") webp with
    | .error _ => ⟨d, false, [d.url], dls, fb⟩
    | .ok _ =>
      ⟨{ d with image := "/images/" ++ d.id ++ ".webp",
                imageAlt := if d.imageAlt ≠ "" then d.imageAlt else d.title },
       true, [d.url], dls, fb⟩

/-- The alternate computed by the tiny-image guard: re-run the generic
scan against the record URL and absolutize the result (a null scan
result propagates to null through the `!url` guard of absolutize). -/
def fallbackCandidate (resolve : String → Option String → Option String)
    (doc : Doc) (dUrl : String) : Option String :=
  (pickFirstLargeImg resolve doc (some dUrl)).bind
    (fun s => absolutize resolve s (some dUrl))

/-- The tiny-image guard: on a degenerate decode, compute the alternate
and download it once if it is truthy, differs from the original URL and
is not a tracking pixel; the resulting buffer (original or alternate)
proceeds to normalization. -/
def validateAndFinish (resolve : String → Option String → Option String)
    (net : Net) (d : Deal) (doc : Doc) (u : String) (buf : Buf) : StepResult :=
  if degenerateMeta (net.metadata buf) then
    match fallbackCandidate resolve doc d.url with
    | some af =>
      if af ≠ "" ∧ af ≠ u ∧ isTrackingPixelUrl af = false then
        match net.getBuffer af with
        | .error _ => ⟨d, false, [d.url], [u, af], true⟩
        | .ok buf2 => finishStep net d buf2 [u, af] true
      else finishStep net d buf [u] true
    | none => finishStep net d buf [u] true
  else finishStep net d buf [u] false

/-- Record body after a successful page fetch: run the picker chain,
absolutize against the record URL, skip (plain `continue`, not a throw)
when the result is falsy or a tracking pixel, else download and
validate. -/
def processWithDoc (resolve : String → Option String → Option String)
    (hostnameOf : String → Option String) (net : Net) (d : Deal)
    (doc : Doc) : StepResult :=
  match absolutizeJ resolve (chainResult resolve hostnameOf doc d.url) (some d.url) with
  | none => ⟨d, false, [d.url], [], false⟩
  | some u =>
    if isTrackingPixelUrl u then ⟨d, false, [d.url], [], false⟩
    else
      match net.getBuffer u with
      | .error _ => ⟨d, false, [d.url], [u], false⟩
      | .ok buf => validateAndFinish resolve net d doc u buf

/-- One iteration of the record loop: skip records with a truthy
`image`, skip records missing `url` or `id`, otherwise run the body
inside the per-record try, whose catch leaves the record untouched. -/
def processDeal (resolve : String → Option String → Option String)
    (hostnameOf : String → Option String) (net : Net) (d : Deal) : StepResult :=
  if d.image ≠ "" then ⟨d, false, [], [], false⟩
  else if d.url = "" ∨ d.id = "" then ⟨d, false, [], [], false⟩
  else
    match net.fetchDoc d.url with
    | .error _ => ⟨d, false, [d.url], [], false⟩
    | .ok doc => processWithDoc resolve hostnameOf net d doc

/-- Outcome of the whole record loop. -/
structure SweepResult where
  deals : List Deal
  changed : Bool
  fetches : List String
  downloads : List String
deriving DecidableEq, Repr

/-- The record loop of `main`: process each record in order; `changed`
is the disjunction of the per-record success flags (the source only ever
sets the flag to true). -/
def runLoop (resolve : String → Option String → Option String)
    (hostnameOf : String → Option String) (net : Net) :
    List Deal → SweepResult
  | [] => ⟨[], false, [], []⟩
  | d :: ds =>
    let r := processDeal resolve hostnameOf net d
    let rest := runLoop resolve hostnameOf net ds
    ⟨r.deal :: rest.deals, r.ok || rest.changed,
     r.fetches ++ rest.fetches, r.downloads ++ rest.downloads⟩

/-- Outcome of one full run: the final records, whether anything
changed, and whether the catalog file was rewritten (the source writes
it exactly once, after the loop, if and only if `changed`). -/
structure RunResult where
  deals : List Deal
  changed : Bool
  catalogWritten : Bool
  fetches : List String
  downloads : List String
deriving DecidableEq, Repr

/-- `main` after the catalog is loaded: run the loop, then rewrite the
catalog in full exactly when `changed` holds. -/
def runDeals (resolve : String → Option String → Option String)
    (hostnameOf : String → Option String) (net : Net)
    (ds : List Deal) : RunResult :=
  ⟨(runLoop resolve hostnameOf net ds).deals,
   (runLoop resolve hostnameOf net ds).changed,
   (runLoop resolve hostnameOf net ds).changed,
   (runLoop resolve hostnameOf net ds).fetches,
   (runLoop resolve hostnameOf net ds).downloads⟩

/-- The record mutated by a successful iteration. -/
def enrichedDeal (d : Deal) : Deal :=
  { d with image := "/images/" ++ d.id ++ ".webp",
           imageAlt := if d.imageAlt ≠ "" then d.imageAlt else d.title }

-- ---------- concrete oracle instances for closed examples ----------

/-- Concrete URL-constructor oracle used by the closed examples below,
agreeing with the real constructor on every input those examples feed
it: an input that already carries a scheme parses on its own and (for
the already-normalized URLs used here) its href is the input itself;
the relative inputs used here fail without a usable base. -/
def resolveSimple (url : String) (_base : Option String) : Option String :=
  if hasScheme url then some url else none

/-- Concrete hostname oracle used by the closed examples below, agreeing
with the real constructor on the https URLs those examples feed it: the
characters after the https scheme marker up to the first slash. -/
def hostnameSimple (u : String) : Option String :=
  if strStartsWith u "https://" then
    some (String.mk ((u.data.drop 8).takeWhile (fun c => c ≠ '/')))
  else none

-- ---------- concrete fixtures for closed examples ----------

/-- A parsed document with no meta tags, scripts, images or landmarks. -/
def emptyDoc : Doc :=
  ⟨none, none, none, none, none, [], [], none, none⟩

/-- A page whose only evidence is an og:image meta tag holding an inline
data URL. -/
def docDataOg : Doc :=
  { emptyDoc with ogImage := some "data:image/gif;base64,abc" }

/-- A page with an og:image meta tag and one additional large img
element, so the degenerate-image fallback has a distinct alternate. -/
def docOgPlusImg : Doc :=
  { emptyDoc with
      ogImage := some "https://example.com/a.jpg",
      imgs := [⟨some "https://example.com/b.jpg", none, none⟩] }

/-- A page whose only evidence is an og:image holding a tracking pixel. -/
def docPixelOg : Doc :=
  { emptyDoc with ogImage := some "https://t.example.com/pixel.gif" }

/-- A marketplace page whose landing image carries only the packed
dynamic-image map of the spec example. -/
def docDynABC : Doc :=
  { emptyDoc with
      landingImage := some ⟨none, none, some
        [("a", .arr [.num 100, .num 100]),
         ("b", .arr [.num 400, .num 400]),
         ("c", .str "not-an-array")]⟩ }

/-- A marketplace page whose landing image carries a packed map with a
single entry of area zero. -/
def docDynZero : Doc :=
  { emptyDoc with
      landingImage := some ⟨none, none, some [("a", .arr [.num 0, .num 0])]⟩ }

/-- A page with no landmarks, one relative img candidate and one
protocol-relative img candidate. -/
def docRelImgs : Doc :=
  { emptyDoc with
      imgs := [⟨some "imgs/rel.jpg", none, none⟩,
               ⟨some "//cdn.example.com/abs.jpg", none, none⟩] }

/-- A record still missing its image. -/
def dealPending : Deal :=
  ⟨"x1", "https://example.com/p", "", "", "Widget"⟩

/-- A record already enriched in an earlier run. -/
def dealDone : Deal :=
  ⟨"y1", "https://example.com/q", "/images/y1.webp", "Alt", "T"⟩

/-- A network where every operation succeeds, serving `docDataOg` and
decoding every buffer as an 800 by 800 image. -/
def netDataOg : Net :=
  { fetchDoc := fun _ => .ok docDataOg
    getBuffer := fun s => .ok s
    metadata := fun _ => some ⟨some 800, some 800⟩
    normalize := fun b => .ok b
    writeImage := fun _ _ => .ok () }

/-- A network serving `docOgPlusImg` whose primary candidate decodes as
a 50 by 50 image and whose alternate decodes as 800 by 800. -/
def netTinyPrimary : Net :=
  { fetchDoc := fun _ => .ok docOgPlusImg
    getBuffer := fun s => .ok s
    metadata := fun b =>
      if b = ("https://example.com/a.jpg" : String) then some ⟨some 50, some 50⟩
      else some ⟨some 800, some 800⟩
    normalize := fun b => .ok b
    writeImage := fun _ _ => .ok () }

/-- A network serving `docOgPlusImg` whose downloads decode with a width
but no height. -/
def netNoHeight : Net :=
  { fetchDoc := fun _ => .ok docOgPlusImg
    getBuffer := fun s => .ok s
    metadata := fun _ => some ⟨some 5, none⟩
    normalize := fun b => .ok b
    writeImage := fun _ _ => .ok () }

/-- A network serving `docPixelOg`, so selection skips the record. -/
def netPixel : Net :=
  { fetchDoc := fun _ => .ok docPixelOg
    getBuffer := fun s => .ok s
    metadata := fun _ => some ⟨some 800, some 800⟩
    normalize := fun b => .ok b
    writeImage := fun _ _ => .ok () }

/-- A network whose page fetch always fails with a non-2xx status. -/
def netFetchFail : Net :=
  { fetchDoc := fun u => .error ("GET " ++ u ++ " -> 404")
    getBuffer := fun _ => .error "unreachable"
    metadata := fun _ => none
    normalize := fun _ => .error "unreachable"
    writeImage := fun _ _ => .error "unreachable" }

-- ---------- helper lemmas ----------

/-- A spec-side reading of "try the extractors in order, taking the
first non-empty result": the first truthy value of the list, null when
none is truthy. -/
def firstTruthy (l : List JVal) : JVal :=
  match l.find? truthy with
  | some v => v
  | none => .null

/-- Spec-side reading of the packed-map selection sentence: the earliest
entry whose area is positive and at least every other area. Used to
compare the source selection against the specification wording. -/
def specLargestPosUrl (es : List (String × JVal)) : Option String :=
  (es.find? (fun e =>
    decide (0 < dynArea e.2) && es.all (fun e2 => decide (dynArea e2.2 ≤ dynArea e.2)))).map
    (fun e => e.1)

/-- Spec-side reading of the claim sentence without the positivity
restriction: the earliest entry whose area is at least every other
area, regardless of sign. -/
def specLargestUrl (es : List (String × JVal)) : Option String :=
  (es.find? (fun e =>
    es.all (fun e2 => decide (dynArea e2.2 ≤ dynArea e.2)))).map (fun e => e.1)

theorem hasScheme_https_append (s : String) : hasScheme ("https:" ++ s) = true := by
  have hd : ("https:" ++ s).data = 'h' :: 't' :: 't' :: 'p' :: 's' :: ':' :: s.data := rfl
  simp only [hasScheme, hd]
  rfl

theorem hasScheme_of_http (s : String)
    (h : strStartsWith s "http://" = true ∨ strStartsWith s "https://" = true) :
    hasScheme s = true := by
  rcases h with h | h
  · rcases List.isPrefixOf_iff_prefix.mp h with ⟨t, ht⟩
    have hd : s.data = 'h' :: 't' :: 't' :: 'p' :: ':' :: '/' :: '/' :: t := by
      rw [← ht]; rfl
    simp only [hasScheme, hd]
    rfl
  · rcases List.isPrefixOf_iff_prefix.mp h with ⟨t, ht⟩
    have hd : s.data = 'h' :: 't' :: 't' :: 'p' :: 's' :: ':' :: '/' :: '/' :: t := by
      rw [← ht]; rfl
    simp only [hasScheme, hd]
    rfl

/-- Anything `absolutize` returns is an absolute URL, provided the URL
constructor only returns absolute URLs (its actual contract: a
successful parse always yields an href starting with a scheme). -/
theorem absolutize_hasScheme (resolve : String → Option String → Option String)
    (hres : ∀ u b r, resolve u b = some r → hasScheme r = true)
    (url : String) (base : Option String) (r : String)
    (h : absolutize resolve url base = some r) : hasScheme r = true := by
  unfold absolutize at h
  split at h
  · exact absurd h (by simp)
  · split at h
    · rw [Option.some_inj] at h
      rw [← h]
      exact hasScheme_https_append url
    · split at h
      · rename_i hhttp
        rw [Option.some_inj] at h
        rw [← h]
        exact hasScheme_of_http url (by simpa using hhttp)
      · exact hres url base r h

/-- The concrete oracle satisfies the absolute-output contract. -/
theorem resolveSimple_hasScheme :
    ∀ u b r, resolveSimple u b = some r → hasScheme r = true := by
  intro u b r h
  unfold resolveSimple at h
  split at h
  · rw [Option.some_inj] at h
    rw [← h]; assumption
  · exact absurd h (by simp)

/-- Every survivor of the generic-scan filter is nonempty, not a
tracking pixel, not a data URL, and (under the resolve contract)
absolute; the result of `pickFirstLargeImg` is a survivor. -/
theorem pickFirstLargeImg_spec (resolve : String → Option String → Option String)
    (hres : ∀ u b r, resolve u b = some r → hasScheme r = true)
    (doc : Doc) (base : Option String) (s : String)
    (h : pickFirstLargeImg resolve doc base = some s) :
    hasScheme s = true ∧ isTrackingPixelUrl s = false ∧ isDataUrl s = false ∧ s ≠ "" := by
  unfold pickFirstLargeImg at h
  have hmem : s ∈ survivingCandidates resolve doc base := by
    split at h
    · rename_i p hp
      rw [Option.some_inj] at h
      rw [← h]
      exact List.mem_of_find?_eq_some hp
    · cases hc : survivingCandidates resolve doc base with
      | nil => rw [hc] at h; exact absurd h (by simp)
      | cons a t =>
        rw [hc] at h
        simp only [List.head?] at h
        rw [Option.some_inj] at h
        rw [← h]
        exact List.mem_cons_self a t
  have hfilter := List.of_mem_filter hmem
  have hmem2 : s ∈ ((rawCandidates doc).map
      (fun raw => absolutize resolve raw base)).filterMap id :=
    List.mem_of_mem_filter hmem
  have habs : ∃ raw, absolutize resolve raw base = some s := by
    rcases List.mem_filterMap.mp hmem2 with ⟨x, hx, hxx⟩
    cases hxx
    rcases List.mem_map.mp hx with ⟨raw, _, hraw⟩
    exact ⟨raw, hraw⟩
  rcases habs with ⟨raw, hraw⟩
  have hscheme := absolutize_hasScheme resolve hres raw base s hraw
  simp only [Bool.and_eq_true, Bool.not_eq_true', decide_eq_true_eq] at hfilter
  exact ⟨hscheme, hfilter.1.2, hfilter.2, hfilter.1.1⟩

theorem imagePath_ne_empty (i : String) : "/images/" ++ i ++ ".webp" ≠ "" := by
  intro h
  have hl := congrArg String.length h
  simp only [String.length_append] at hl
  rw [show "/images/".length = 8 from rfl, show ".webp".length = 5 from rfl,
    show "".length = 0 from rfl] at hl
  omega

theorem finishStep_cases (net : Net) (d : Deal) (buf : Buf) (dls : List String)
    (fb : Bool) :
    finishStep net d buf dls fb = ⟨d, false, [d.url], dls, fb⟩ ∨
    finishStep net d buf dls fb = ⟨enrichedDeal d, true, [d.url], dls, fb⟩ := by
  unfold finishStep enrichedDeal
  split
  · exact Or.inl rfl
  · split
    · exact Or.inl rfl
    · exact Or.inr rfl

theorem finishStep_fallbackScan (net : Net) (d : Deal) (buf : Buf)
    (dls : List String) (fb : Bool) :
    (finishStep net d buf dls fb).fallbackScan = fb := by
  rcases finishStep_cases net d buf dls fb with h | h <;> rw [h]

theorem finishStep_downloads (net : Net) (d : Deal) (buf : Buf)
    (dls : List String) (fb : Bool) :
    (finishStep net d buf dls fb).downloads = dls := by
  rcases finishStep_cases net d buf dls fb with h | h <;> rw [h]

/-- Outcome of the validate step: either the record is unchanged with
`ok = false`, or it is enriched with `ok = true`. -/
theorem vaf_deal_cases (resolve : String → Option String → Option String)
    (net : Net) (d : Deal) (doc : Doc) (u : String) (buf : Buf) :
    ((validateAndFinish resolve net d doc u buf).ok = false ∧
      (validateAndFinish resolve net d doc u buf).deal = d) ∨
    ((validateAndFinish resolve net d doc u buf).ok = true ∧
      (validateAndFinish resolve net d doc u buf).deal = enrichedDeal d) := by
  have hfs : ∀ (b : Buf) (dls : List String) (fb : Bool),
      ((finishStep net d b dls fb).ok = false ∧ (finishStep net d b dls fb).deal = d) ∨
      ((finishStep net d b dls fb).ok = true ∧
        (finishStep net d b dls fb).deal = enrichedDeal d) := by
    intro b dls fb
    rcases finishStep_cases net d b dls fb with h | h <;> rw [h]
    · exact Or.inl ⟨rfl, rfl⟩
    · exact Or.inr ⟨rfl, rfl⟩
  unfold validateAndFinish
  split
  · split
    · split
      · split
        · exact Or.inl ⟨rfl, rfl⟩
        · exact hfs _ _ _
      · exact hfs _ _ _
    · exact hfs _ _ _
  · exact hfs _ _ _

/-- The degenerate branch is entered exactly on a degenerate decode. -/
theorem vaf_fallbackScan (resolve : String → Option String → Option String)
    (net : Net) (d : Deal) (doc : Doc) (u : String) (buf : Buf) :
    (validateAndFinish resolve net d doc u buf).fallbackScan
      = degenerateMeta (net.metadata buf) := by
  unfold validateAndFinish
  split <;> rename_i hdeg
  · split
    · split
      · split
        · rw [hdeg]
        · rw [finishStep_fallbackScan, hdeg]
      · rw [finishStep_fallbackScan, hdeg]
    · rw [finishStep_fallbackScan, hdeg]
  · rw [finishStep_fallbackScan]
    exact (Bool.not_eq_true _).mp hdeg |>.symm

/-- Download trace of the validate step: the original alone, or the
original followed by a valid alternate. -/
theorem vaf_downloads (resolve : String → Option String → Option String)
    (net : Net) (d : Deal) (doc : Doc) (u : String) (buf : Buf) :
    (validateAndFinish resolve net d doc u buf).downloads = [u] ∨
    (∃ af, fallbackCandidate resolve doc d.url = some af ∧ af ≠ "" ∧ af ≠ u ∧
      isTrackingPixelUrl af = false ∧
      (validateAndFinish resolve net d doc u buf).downloads = [u, af]) := by
  unfold validateAndFinish
  split
  · split
    · rename_i af haf
      split
      · rename_i hcond
        split
        · exact Or.inr ⟨af, haf, hcond.1, hcond.2.1, hcond.2.2, rfl⟩
        · exact Or.inr ⟨af, haf, hcond.1, hcond.2.1, hcond.2.2,
            finishStep_downloads _ _ _ _ _⟩
      · exact Or.inl (finishStep_downloads _ _ _ _ _)
    · exact Or.inl (finishStep_downloads _ _ _ _ _)
  · exact Or.inl (finishStep_downloads _ _ _ _ _)

/-- In the degenerate branch, a truthy alternate that differs from the
original and is not a tracking pixel is downloaded exactly once, whether
or not that download succeeds. -/
theorem vaf_deg_fb (resolve : String → Option String → Option String)
    (net : Net) (d : Deal) (doc : Doc) (u : String) (buf : Buf)
    (hdeg : degenerateMeta (net.metadata buf) = true) (af : String)
    (haf : fallbackCandidate resolve doc d.url = some af)
    (h1 : af ≠ "") (h2 : af ≠ u) (h3 : isTrackingPixelUrl af = false) :
    (validateAndFinish resolve net d doc u buf).downloads = [u, af] := by
  unfold validateAndFinish
  rw [hdeg, haf]
  simp only [if_true]
  rw [if_pos ⟨h1, h2, h3⟩]
  split
  · rfl
  · rw [finishStep_downloads]

theorem processDeal_skip_image (resolve : String → Option String → Option String)
    (hostnameOf : String → Option String) (net : Net) (d : Deal)
    (h : d.image ≠ "") :
    processDeal resolve hostnameOf net d = ⟨d, false, [], [], false⟩ := by
  unfold processDeal
  rw [if_pos h]

theorem processDeal_reach (resolve : String → Option String → Option String)
    (hostnameOf : String → Option String) (net : Net) (d : Deal) (doc : Doc)
    (him : d.image = "") (hurl : d.url ≠ "") (hid : d.id ≠ "")
    (hdoc : net.fetchDoc d.url = .ok doc) :
    processDeal resolve hostnameOf net d
      = processWithDoc resolve hostnameOf net d doc := by
  unfold processDeal
  rw [if_neg (by simp [him]), if_neg (by simp [hurl, hid]), hdoc]

theorem processWithDoc_reach (resolve : String → Option String → Option String)
    (hostnameOf : String → Option String) (net : Net) (d : Deal) (doc : Doc)
    (u : String) (buf : Buf)
    (hsel : absolutizeJ resolve (chainResult resolve hostnameOf doc d.url)
      (some d.url) = some u)
    (htrk : isTrackingPixelUrl u = false)
    (hbuf : net.getBuffer u = .ok buf) :
    processWithDoc resolve hostnameOf net d doc
      = validateAndFinish resolve net d doc u buf := by
  unfold processWithDoc
  rw [hsel]
  simp only [htrk, Bool.false_eq_true, if_false, hbuf]

/-- Outcome of one iteration: either the record is unchanged with
`ok = false`, or the guards passed and the record is enriched with
`ok = true`. -/
theorem processDeal_deal_cases (resolve : String → Option String → Option String)
    (hostnameOf : String → Option String) (net : Net) (d : Deal) :
    ((processDeal resolve hostnameOf net d).ok = false ∧
      (processDeal resolve hostnameOf net d).deal = d) ∨
    ((processDeal resolve hostnameOf net d).ok = true ∧ d.image = "" ∧
      d.id ≠ "" ∧
      (processDeal resolve hostnameOf net d).deal = enrichedDeal d) := by
  unfold processDeal
  split
  · exact Or.inl ⟨rfl, rfl⟩
  · rename_i him
    have him2 : d.image = "" := by
      by_contra hc
      exact him hc
    split
    · exact Or.inl ⟨rfl, rfl⟩
    · rename_i hguards
      have hid : d.id ≠ "" := fun hc => hguards (Or.inr hc)
      split
      · exact Or.inl ⟨rfl, rfl⟩
      · unfold processWithDoc
        split
        · exact Or.inl ⟨rfl, rfl⟩
        · split
          · exact Or.inl ⟨rfl, rfl⟩
          · split
            · exact Or.inl ⟨rfl, rfl⟩
            · rcases vaf_deal_cases resolve net d _ _ _ with ⟨h1, h2⟩ | ⟨h1, h2⟩
              · exact Or.inl ⟨h1, h2⟩
              · exact Or.inr ⟨h1, him2, hid, h2⟩

theorem enrichedDeal_ne (d : Deal) (him : d.image = "") : enrichedDeal d ≠ d := by
  intro h
  have hi := congrArg Deal.image h
  rw [him] at hi
  exact imagePath_ne_empty d.id hi

theorem runLoop_all_enriched (resolve : String → Option String → Option String)
    (hostnameOf : String → Option String) (net : Net) (ds : List Deal)
    (h : ∀ d ∈ ds, d.image ≠ "") :
    runLoop resolve hostnameOf net ds = ⟨ds, false, [], []⟩ := by
  induction ds with
  | nil => rfl
  | cons d t ih =>
    have hd := h d (List.mem_cons_self d t)
    have ht : ∀ x ∈ t, x.image ≠ "" := fun x hx => h x (List.mem_cons_of_mem d hx)
    simp only [runLoop, ih ht, processDeal_skip_image resolve hostnameOf net d hd]
    rfl

theorem runLoop_changed_iff (resolve : String → Option String → Option String)
    (hostnameOf : String → Option String) (net : Net) (ds : List Deal) :
    (runLoop resolve hostnameOf net ds).changed = true ↔
      (runLoop resolve hostnameOf net ds).deals ≠ ds := by
  induction ds with
  | nil => simp [runLoop]
  | cons d t ih =>
    rcases processDeal_deal_cases resolve hostnameOf net d with
      ⟨hok, hdeal⟩ | ⟨hok, him, _, hdeal⟩
    · simp only [runLoop, hok, hdeal, Bool.false_or]
      rw [ih]
      simp
    · simp only [runLoop, hok, hdeal, Bool.true_or]
      have hne : enrichedDeal d :: (runLoop resolve hostnameOf net t).deals ≠ d :: t := by
        intro hc
        injection hc with h1 _
        exact enrichedDeal_ne d him h1
      exact ⟨fun _ => hne, fun _ => by trivial⟩

theorem runLoop_append (resolve : String → Option String → Option String)
    (hostnameOf : String → Option String) (net : Net) (ds₁ ds₂ : List Deal) :
    runLoop resolve hostnameOf net (ds₁ ++ ds₂) =
      ⟨(runLoop resolve hostnameOf net ds₁).deals
          ++ (runLoop resolve hostnameOf net ds₂).deals,
       (runLoop resolve hostnameOf net ds₁).changed
          || (runLoop resolve hostnameOf net ds₂).changed,
       (runLoop resolve hostnameOf net ds₁).fetches
          ++ (runLoop resolve hostnameOf net ds₂).fetches,
       (runLoop resolve hostnameOf net ds₁).downloads
          ++ (runLoop resolve hostnameOf net ds₂).downloads⟩ := by
  induction ds₁ with
  | nil => simp [runLoop]
  | cons d t ih =>
    simp only [List.cons_append, runLoop, List.append_eq, ih, List.append_assoc,
      Bool.or_assoc]

/-- Invariant of the best/bestArea accumulator loop: it returns `some u`
exactly when some entry for `u` beats the running area strictly, beats
every earlier entry strictly and every later entry weakly — or when the
loop never improves on the incoming `best`. -/
theorem pickDynGo_spec (es : List (String × JVal)) :
    ∀ (best : Option String) (a : Int) (u : String),
    pickDynGo es best a = some u ↔
      ((∃ l₁ v l₂, es = l₁ ++ (u, v) :: l₂ ∧ a < dynArea v ∧
        (∀ e ∈ l₁, dynArea e.2 < dynArea v) ∧
        (∀ e ∈ l₂, dynArea e.2 ≤ dynArea v)) ∨
      (best = some u ∧ ∀ e ∈ es, dynArea e.2 ≤ a)) := by
  induction es with
  | nil =>
    intro best a u
    constructor
    · intro h
      exact Or.inr ⟨h, by simp⟩
    · rintro (⟨l₁, v, l₂, heq, _⟩ | ⟨hb, _⟩)
      · exact absurd heq (by simp)
      · exact hb
  | cons hd rest ih =>
    obtain ⟨w, v⟩ := hd
    intro best a u
    simp only [pickDynGo]
    by_cases hc : a < dynArea v
    · rw [if_pos hc, ih]
      constructor
      · rintro (⟨l₁, v', l₂, heq, hgt, hpre, hsuf⟩ | ⟨hbw, hall⟩)
        · refine Or.inl ⟨(w, v) :: l₁, v', l₂, by rw [heq, List.cons_append],
            lt_trans hc hgt, ?_, hsuf⟩
          intro e he
          rcases List.mem_cons.mp he with rfl | he2
          · exact hgt
          · exact hpre e he2
        · rw [Option.some_inj] at hbw
          exact Or.inl ⟨[], v, rest, by rw [hbw, List.nil_append], hc,
            by simp, hall⟩
      · rintro (⟨l₁, v', l₂, heq, ha, hpre, hsuf⟩ | ⟨_, hall⟩)
        · cases l₁ with
          | nil =>
            rw [List.nil_append] at heq
            injection heq with h1 h2
            injection h1 with hw hv
            refine Or.inr ⟨by rw [hw], ?_⟩
            intro e he
            rw [h2] at he
            have := hsuf e he
            rw [← hv] at this
            exact this
          | cons x l₁ =>
            rw [List.cons_append] at heq
            injection heq with h1 h2
            refine Or.inl ⟨l₁, v', l₂, h2, ?_, fun e he => hpre e (by simp [he]),
              hsuf⟩
            have := hpre x (List.mem_cons_self x l₁)
            rw [← h1] at this
            exact this
        · exact absurd (hall (w, v) (List.mem_cons_self _ _)) (not_le.mpr hc)
    · rw [if_neg hc, ih]
      have hle : dynArea v ≤ a := not_lt.mp hc
      constructor
      · rintro (⟨l₁, v', l₂, heq, ha, hpre, hsuf⟩ | ⟨hb, hall⟩)
        · refine Or.inl ⟨(w, v) :: l₁, v', l₂, by rw [heq, List.cons_append],
            ha, ?_, hsuf⟩
          intro e he
          rcases List.mem_cons.mp he with rfl | he2
          · exact lt_of_le_of_lt hle ha
          · exact hpre e he2
        · refine Or.inr ⟨hb, ?_⟩
          intro e he
          rcases List.mem_cons.mp he with rfl | he2
          · exact hle
          · exact hall e he2
      · rintro (⟨l₁, v', l₂, heq, ha, hpre, hsuf⟩ | ⟨hb, hall⟩)
        · cases l₁ with
          | nil =>
            rw [List.nil_append] at heq
            injection heq with h1 h2
            injection h1 with _ hv
            rw [← hv] at ha
            exact absurd ha hc
          | cons x l₁ =>
            rw [List.cons_append] at heq
            injection heq with _ h2
            exact Or.inl ⟨l₁, v', l₂, h2, ha, fun e he => hpre e (by simp [he]),
              hsuf⟩
        · exact Or.inr ⟨hb, fun e he => hall e (List.mem_cons_of_mem _ he)⟩

/-- The map selection returns `some u` exactly when the entry of `u` has
positive area, strictly larger than every earlier area and at least
every later area. -/
theorem pickDynBest_spec (es : List (String × JVal)) (u : String) :
    pickDynBest es = some u ↔
      ∃ l₁ v l₂, es = l₁ ++ (u, v) :: l₂ ∧ 0 < dynArea v ∧
        (∀ e ∈ l₁, dynArea e.2 < dynArea v) ∧
        (∀ e ∈ l₂, dynArea e.2 ≤ dynArea v) := by
  unfold pickDynBest
  rw [pickDynGo_spec]
  simp

theorem pickFirstLargeImg_mem (resolve : String → Option String → Option String)
    (doc : Doc) (base : Option String) (s : String)
    (h : pickFirstLargeImg resolve doc base = some s) :
    s ∈ survivingCandidates resolve doc base := by
  unfold pickFirstLargeImg at h
  split at h
  · rename_i p hp
    rw [Option.some_inj] at h
    rw [← h]
    exact List.mem_of_find?_eq_some hp
  · cases hc : survivingCandidates resolve doc base with
    | nil => rw [hc] at h; exact absurd h (by simp)
    | cons a t =>
      rw [hc] at h
      simp only [List.head?] at h
      rw [Option.some_inj] at h
      rw [← h]
      exact List.mem_cons_self a t

theorem pickFirstLargeImg_ne_empty (resolve : String → Option String → Option String)
    (doc : Doc) (base : Option String) (s : String)
    (h : pickFirstLargeImg resolve doc base = some s) : s ≠ "" := by
  have hf := List.of_mem_filter (pickFirstLargeImg_mem resolve doc base s h)
  simp only [Bool.and_eq_true, decide_eq_true_eq] at hf
  exact hf.1.1

theorem absolutizeJ_hasScheme (resolve : String → Option String → Option String)
    (hres : ∀ u b r, resolve u b = some r → hasScheme r = true)
    (v : JVal) (base : Option String) (r : String)
    (h : absolutizeJ resolve v base = some r) : hasScheme r = true := by
  unfold absolutizeJ at h
  split at h
  · exact absolutize_hasScheme resolve hres _ base r h
  · exact absurd h (by simp)

theorem firstTruthy_cons (x : JVal) (l : List JVal) :
    firstTruthy (x :: l) = if truthy x then x else firstTruthy l := by
  unfold firstTruthy
  rw [List.find?_cons]
  cases h : truthy x <;> simp [h]

/-- The short-circuit picker chain is the first-truthy fold of the
extractor list the specification describes. -/
theorem chainResult_eq_firstTruthy (resolve : String → Option String → Option String)
    (hostnameOf : String → Option String) (doc : Doc) (url : String) :
    chainResult resolve hostnameOf doc url =
      firstTruthy (if isAmazonUrl hostnameOf url then
        [pickAmazonImage resolve doc, pickOgImage doc, pickFromLdJson doc.ldBlocks,
         jOfOpt (pickFirstLargeImg resolve doc (some url))]
      else
        [pickOgImage doc, pickFromLdJson doc.ldBlocks,
         jOfOpt (pickFirstLargeImg resolve doc (some url))]) := by
  have hcons : ∀ (x : JVal) (l : List JVal),
      jOr x (firstTruthy l) = firstTruthy (x :: l) := by
    intro x l
    rw [firstTruthy_cons]
    rfl
  have hlast : jOfOpt (pickFirstLargeImg resolve doc (some url)) =
      firstTruthy [jOfOpt (pickFirstLargeImg resolve doc (some url))] := by
    cases h : pickFirstLargeImg resolve doc (some url) with
    | none => rfl
    | some s =>
      have hne := pickFirstLargeImg_ne_empty resolve doc (some url) s h
      rw [firstTruthy_cons, if_pos (by simp [jOfOpt, truthy, hne])]
  unfold chainResult
  split
  · conv_lhs => rw [hlast, hcons, hcons, hcons]
  · conv_lhs => rw [hlast, hcons, hcons]

theorem vaf_nondeg (resolve : String → Option String → Option String)
    (net : Net) (d : Deal) (doc : Doc) (u : String) (buf : Buf)
    (hdeg : degenerateMeta (net.metadata buf) = false) :
    validateAndFinish resolve net d doc u buf = finishStep net d buf [u] false := by
  unfold validateAndFinish
  rw [hdeg]
  simp

theorem processWithDoc_skip (resolve : String → Option String → Option String)
    (hostnameOf : String → Option String) (net : Net) (d : Deal) (doc : Doc)
    (h : absolutizeJ resolve (chainResult resolve hostnameOf doc d.url)
          (some d.url) = none
      ∨ ∃ u, absolutizeJ resolve (chainResult resolve hostnameOf doc d.url)
          (some d.url) = some u ∧ isTrackingPixelUrl u = true) :
    processWithDoc resolve hostnameOf net d doc = ⟨d, false, [d.url], [], false⟩ := by
  unfold processWithDoc
  rcases h with h | ⟨u, hu, ht⟩
  · rw [h]
  · rw [hu]
    simp [ht]

/-- Download trace of one record: empty, or a validated primary
candidate optionally followed by a validated alternate. -/
theorem processDeal_downloads_cases (resolve : String → Option String → Option String)
    (hostnameOf : String → Option String) (net : Net) (d : Deal) :
    (processDeal resolve hostnameOf net d).downloads = [] ∨
    ∃ doc u, net.fetchDoc d.url = .ok doc ∧
      absolutizeJ resolve (chainResult resolve hostnameOf doc d.url)
        (some d.url) = some u ∧
      isTrackingPixelUrl u = false ∧
      ((processDeal resolve hostnameOf net d).downloads = [u] ∨
       ∃ af, fallbackCandidate resolve doc d.url = some af ∧ af ≠ "" ∧ af ≠ u ∧
         isTrackingPixelUrl af = false ∧
         (processDeal resolve hostnameOf net d).downloads = [u, af]) := by
  unfold processDeal
  split
  · exact Or.inl rfl
  · split
    · exact Or.inl rfl
    · split
      · exact Or.inl rfl
      · rename_i doc hdoc
        unfold processWithDoc
        split
        · exact Or.inl rfl
        · rename_i u hu
          split
          · exact Or.inl rfl
          · rename_i htrk
            have htrk2 : isTrackingPixelUrl u = false := by
              simpa using htrk
            split
            · exact Or.inr ⟨doc, u, hdoc, hu, htrk2, Or.inl rfl⟩
            · rename_i buf hbuf
              rcases vaf_downloads resolve net d doc u buf with h | ⟨af, h1, h2, h3, h4, h5⟩
              · exact Or.inr ⟨doc, u, hdoc, hu, htrk2, Or.inl h⟩
              · exact Or.inr ⟨doc, u, hdoc, hu, htrk2,
                  Or.inr ⟨af, h1, h2, h3, h4, h5⟩⟩

-- ---------- claim theorems ----------

/-- Claim C8: for every input string and base, absolutize returns either
an absolute URL or no value, and it is a total function into Option (the
throw of the URL constructor is caught, so no call raises): empty input
yields no value, malformed input propagates the constructor failure as
no value, and protocol-relative input is promoted to the https scheme.
The constructor contract hypothesis states that a successful parse
yields an href carrying a scheme. -/
theorem absolutize_total_safe (resolve : String → Option String → Option String)
    (url : String) (base : Option String)
    (hres : ∀ u b r, resolve u b = some r → hasScheme r = true) :
    (∀ r, absolutize resolve url base = some r → hasScheme r = true)
    ∧ (url = "" → absolutize resolve url base = none)
    ∧ (strStartsWith url "//" = true →
        absolutize resolve url base = some ("https:" ++ url)) := by
  refine ⟨fun r h => absolutize_hasScheme resolve hres url base r h, ?_, ?_⟩
  · intro h
    unfold absolutize
    rw [if_pos h]
  · intro h
    have hne : url ≠ "" := by
      intro he
      rw [he] at h
      exact absurd h (by decide)
    unfold absolutize
    rw [if_neg hne, if_pos h]

/-- Witness for C8 at concrete inputs: a protocol-relative URL is
promoted to https and the empty string yields no value. -/
theorem absolutize_total_safe_instance :
    absolutize resolveSimple "//cdn.example.com/a.png" (some "https://example.com/p")
      = some "https://cdn.example.com/a.png"
    ∧ absolutize resolveSimple "" none = none := by
  have h1 := absolutize_total_safe resolveSimple "//cdn.example.com/a.png"
    (some "https://example.com/p") resolveSimple_hasScheme
  have h2 := absolutize_total_safe resolveSimple "" none resolveSimple_hasScheme
  exact ⟨h1.2.2 (by decide), h2.2.1 rfl⟩

/-- Claim C9: when both marketplace landmarks yield nothing and
`pickAmazonImage` delegates to the generic scan with no base URL, every
relative candidate is discarded by the absolutize-then-filter step, so
any string the delegation returns is an absolute URL (it carries a
scheme; protocol-relative candidates have been promoted to https). -/
theorem amazon_delegation_absolute (resolve : String → Option String → Option String)
    (doc : Doc) (s : String)
    (hres : ∀ u b r, resolve u b = some r → hasScheme r = true)
    (h1 : truthy (tryEl doc.landingImage) = false)
    (h2 : truthy (tryEl doc.imgWrapperImg) = false)
    (h : pickAmazonImage resolve doc = JVal.str s) :
    hasScheme s = true := by
  unfold pickAmazonImage at h
  rw [h1, h2] at h
  simp only [Bool.false_eq_true, if_false] at h
  cases hp : pickFirstLargeImg resolve doc none with
  | none =>
    rw [hp] at h
    exact absurd h (by simp [jOfOpt])
  | some p =>
    rw [hp] at h
    simp only [jOfOpt, JVal.str.injEq] at h
    rw [← h]
    exact (pickFirstLargeImg_spec resolve hres doc none p hp).1

/-- Witness for C9: on a page with one relative and one
protocol-relative img candidate and no landmarks, the delegation result
is the https-promoted absolute candidate, and it carries a scheme. -/
theorem amazon_delegation_absolute_instance :
    hasScheme "https://cdn.example.com/abs.jpg" = true :=
  amazon_delegation_absolute resolveSimple docRelImgs
    "https://cdn.example.com/abs.jpg" resolveSimple_hasScheme rfl rfl rfl

/-- Counterexample for C4: the claim predicts the largest-product URL
for every packed map, ignoring non-array entries; but for the map with
the single entry  a : [0, 0]  the spec reading selects a while the
extractor returns nothing, because the accumulator loop only replaces
its best entry on a strict improvement over the initial area 0. -/
theorem dynamic_map_zero_area_cex :
    specLargestUrl [("a", JVal.arr [JVal.num 0, JVal.num 0])] = some "a"
    ∧ pickAmazonImage resolveSimple docDynZero = JVal.null :=
  ⟨rfl, rfl⟩

/-- Claim C4 as amended: the packed-map selection returns a URL exactly
when its entry has positive width times height product, strictly larger
than every earlier area and at least every later area (ties in favour of
the earliest entry, non-array entries counting as area 0 and never
selected); when no entry has positive product the map yields nothing.
In particular the spec example map selects b. -/
theorem dynamic_map_largest_positive :
    (∀ (es : List (String × JVal)) (u : String),
      pickDynBest es = some u ↔
        ∃ l₁ v l₂, es = l₁ ++ (u, v) :: l₂ ∧ 0 < dynArea v ∧
          (∀ e ∈ l₁, dynArea e.2 < dynArea v) ∧
          (∀ e ∈ l₂, dynArea e.2 ≤ dynArea v))
    ∧ pickAmazonImage resolveSimple docDynABC = JVal.str "b" :=
  ⟨pickDynBest_spec, rfl⟩

/-- Counterexample for C3: a data URL coming from the og:image meta tag
passes the selection filter (it is neither empty nor a tracking pixel)
and is handed to the image download step, contradicting the invariant
that every fetched candidate is a non-data URL; only the generic scan
filters data URLs. -/
theorem download_candidate_data_url_cex :
    (processDeal resolveSimple hostnameSimple netDataOg dealPending).downloads
      = ["data:image/gif;base64,abc"]
    ∧ isDataUrl "data:image/gif;base64,abc" = true :=
  ⟨rfl, by decide⟩

/-- Claim C3 as amended: every candidate URL handed to the image
download step (primary or fallback) is an absolute URL that has passed
the tracking-pixel filter; it need not avoid the data scheme, since a
data URL produced by the meta, structured-data or landmark extractors
reaches the download step. -/
theorem download_candidates_absolute_nonpixel
    (resolve : String → Option String → Option String)
    (hostnameOf : String → Option String) (net : Net) (d : Deal)
    (hres : ∀ u b r, resolve u b = some r → hasScheme r = true) :
    ∀ u ∈ (processDeal resolve hostnameOf net d).downloads,
      hasScheme u = true ∧ isTrackingPixelUrl u = false := by
  intro u hu
  rcases processDeal_downloads_cases resolve hostnameOf net d with
    h | ⟨doc, u0, _, habs, htrk, hdl⟩
  · rw [h] at hu
    exact absurd hu (List.not_mem_nil u)
  · have hu0 := absolutizeJ_hasScheme resolve hres _ _ u0 habs
    rcases hdl with h | ⟨af, haf, _, _, haftrk, h⟩
    · rw [h] at hu
      rw [List.mem_singleton] at hu
      rw [hu]
      exact ⟨hu0, htrk⟩
    · rw [h] at hu
      rcases List.mem_cons.mp hu with rfl | hu2
      · exact ⟨hu0, htrk⟩
      · rw [List.mem_singleton] at hu2
        rw [hu2]
        have hs0 : ∃ s0, absolutize resolve s0 (some d.url) = some af := by
          unfold fallbackCandidate at haf
          cases hp : pickFirstLargeImg resolve doc (some d.url) with
          | none => rw [hp] at haf; exact absurd haf (by simp)
          | some s0 =>
            rw [hp] at haf
            simp only [Option.some_bind] at haf
            exact ⟨s0, haf⟩
        rcases hs0 with ⟨s0, habs0⟩
        exact ⟨absolutize_hasScheme resolve hres s0 (some d.url) af habs0, haftrk⟩

/-- Witness for the amended C3: the single download of the data-URL run
is absolute and passed the tracking filter. -/
theorem download_candidates_absolute_nonpixel_instance :
    hasScheme "data:image/gif;base64,abc" = true
    ∧ isTrackingPixelUrl "data:image/gif;base64,abc" = false :=
  download_candidates_absolute_nonpixel resolveSimple hostnameSimple netDataOg
    dealPending resolveSimple_hasScheme "data:image/gif;base64,abc"
    (by rw [show (processDeal resolveSimple hostnameSimple netDataOg
          dealPending).downloads = ["data:image/gif;base64,abc"] from rfl]
        exact List.mem_singleton_self _)

/-- Claim C2: the picker chain is the first-truthy fold of the fixed
extractor order, branching on the marketplace test (marketplace, meta,
structured data, generic for Amazon URLs; meta, structured data, generic
otherwise); the chosen value is absolutized against the record URL, and
when the result is empty or a tracking pixel the record is skipped: no
download happens and the record, in particular its image field, is left
unchanged so it is reconsidered on a future run. -/
theorem selection_policy_order_and_skip
    (resolve : String → Option String → Option String)
    (hostnameOf : String → Option String) :
    (∀ (doc : Doc) (url : String),
      chainResult resolve hostnameOf doc url =
        firstTruthy (if isAmazonUrl hostnameOf url then
          [pickAmazonImage resolve doc, pickOgImage doc, pickFromLdJson doc.ldBlocks,
           jOfOpt (pickFirstLargeImg resolve doc (some url))]
        else
          [pickOgImage doc, pickFromLdJson doc.ldBlocks,
           jOfOpt (pickFirstLargeImg resolve doc (some url))]))
    ∧ (∀ (net : Net) (d : Deal) (doc : Doc),
        d.image = "" → d.url ≠ "" → d.id ≠ "" → net.fetchDoc d.url = .ok doc →
        (absolutizeJ resolve (chainResult resolve hostnameOf doc d.url)
            (some d.url) = none
          ∨ ∃ u, absolutizeJ resolve (chainResult resolve hostnameOf doc d.url)
              (some d.url) = some u ∧ isTrackingPixelUrl u = true) →
        processDeal resolve hostnameOf net d
          = ⟨d, false, [d.url], [], false⟩) := by
  constructor
  · exact chainResult_eq_firstTruthy resolve hostnameOf
  · intro net d doc him hurl hid hdoc habs
    rw [processDeal_reach resolve hostnameOf net d doc him hurl hid hdoc]
    exact processWithDoc_skip resolve hostnameOf net d doc habs

/-- Witness for C2: a record whose only candidate is a tracking pixel is
skipped with the record unchanged and nothing downloaded. -/
theorem selection_policy_order_and_skip_instance :
    processDeal resolveSimple hostnameSimple netPixel dealPending
      = ⟨dealPending, false, ["https://example.com/p"], [], false⟩ :=
  (selection_policy_order_and_skip resolveSimple hostnameSimple).2 netPixel
    dealPending docPixelOg rfl (by decide) (by decide) rfl
    (Or.inr ⟨"https://t.example.com/pixel.gif", rfl, by decide⟩)

/-- Claim C1: once a record downloads its selected candidate, a decoded
area of at least 10000 square pixels (for instance 200 by 200) triggers
no fallback and exactly the one download happens; a decoded area below
10000 (for instance 50 by 50) or an undecodable buffer triggers exactly
one fallback attempt, re-running the generic extractor and downloading
the alternate only when it is truthy, differs from the original and is
not a tracking pixel; and in every case at most two downloads, hence at
most one fallback download, happen for the record. -/
theorem fallback_single_attempt (resolve : String → Option String → Option String)
    (hostnameOf : String → Option String) (net : Net) (d : Deal) (doc : Doc)
    (u : String) (buf : Buf)
    (him : d.image = "") (hurl : d.url ≠ "") (hid : d.id ≠ "")
    (hdoc : net.fetchDoc d.url = .ok doc)
    (hsel : absolutizeJ resolve (chainResult resolve hostnameOf doc d.url)
      (some d.url) = some u)
    (htrk : isTrackingPixelUrl u = false)
    (hbuf : net.getBuffer u = .ok buf) :
    (∀ w h, net.metadata buf = some ⟨some w, some h⟩ → w ≠ 0 → h ≠ 0 →
        10000 ≤ w * h →
        (processDeal resolve hostnameOf net d).fallbackScan = false ∧
        (processDeal resolve hostnameOf net d).downloads = [u])
    ∧ ((net.metadata buf = none ∨
        ∃ w h, net.metadata buf = some ⟨some w, some h⟩ ∧ w ≠ 0 ∧ h ≠ 0 ∧
          w * h < 10000) →
        (processDeal resolve hostnameOf net d).fallbackScan = true ∧
        ((processDeal resolve hostnameOf net d).downloads = [u] ∨
         ∃ af, fallbackCandidate resolve doc d.url = some af ∧ af ≠ "" ∧ af ≠ u ∧
           isTrackingPixelUrl af = false ∧
           (processDeal resolve hostnameOf net d).downloads = [u, af]) ∧
        (∀ af, fallbackCandidate resolve doc d.url = some af → af ≠ "" →
           af ≠ u → isTrackingPixelUrl af = false →
           (processDeal resolve hostnameOf net d).downloads = [u, af]))
    ∧ (processDeal resolve hostnameOf net d).downloads.length ≤ 2 := by
  have heq : processDeal resolve hostnameOf net d
      = validateAndFinish resolve net d doc u buf :=
    (processDeal_reach resolve hostnameOf net d doc him hurl hid hdoc).trans
      (processWithDoc_reach resolve hostnameOf net d doc u buf hsel htrk hbuf)
  refine ⟨?_, ?_, ?_⟩
  · intro w h hm hw hh harea
    have hdeg : degenerateMeta (net.metadata buf) = false := by
      rw [hm]
      simp [degenerateMeta, truthyDim, hw, hh]
      omega
    rw [heq]
    exact ⟨by rw [vaf_fallbackScan, hdeg],
      by rw [vaf_nondeg resolve net d doc u buf hdeg, finishStep_downloads]⟩
  · intro hcase
    have hdeg : degenerateMeta (net.metadata buf) = true := by
      rcases hcase with h | ⟨w, h, hm, hw, hh, harea⟩
      · rw [h]
        rfl
      · rw [hm]
        simp [degenerateMeta, truthyDim, hw, hh, harea]
    refine ⟨by rw [heq, vaf_fallbackScan, hdeg], ?_, ?_⟩
    · rw [heq]
      exact vaf_downloads resolve net d doc u buf
    · intro af haf h1 h2 h3
      rw [heq]
      exact vaf_deg_fb resolve net d doc u buf hdeg af haf h1 h2 h3
  · rw [heq]
    rcases vaf_downloads resolve net d doc u buf with h | ⟨af, _, _, _, _, h⟩ <;>
      rw [h] <;> simp

/-- Witness for C1: with a 50 by 50 primary image the degenerate branch
runs and at most one extra download happens. -/
theorem fallback_single_attempt_instance :
    (processDeal resolveSimple hostnameSimple netTinyPrimary dealPending).fallbackScan
      = true
    ∧ (processDeal resolveSimple hostnameSimple netTinyPrimary
        dealPending).downloads.length ≤ 2 := by
  have h := fallback_single_attempt resolveSimple hostnameSimple netTinyPrimary
    dealPending docOgPlusImg "https://example.com/a.jpg"
    ("https://example.com/a.jpg" : Buf)
    rfl (by decide) (by decide) rfl rfl (by decide) rfl
  exact ⟨(h.2.1 (Or.inr ⟨50, 50, rfl, by decide, by decide, by decide⟩)).1, h.2.2⟩

/-- Claim C10: a successful metadata decode that lacks a width or a
height, or whose width or height is zero, is not classified as
degenerate and triggers no fallback; degeneracy holds exactly when the
decode failed entirely or both dimensions are present, nonzero and
multiply to less than 10000. -/
theorem metadata_partial_dims_not_degenerate
    (resolve : String → Option String → Option String)
    (hostnameOf : String → Option String) (net : Net) (d : Deal) (doc : Doc)
    (u : String) (buf : Buf)
    (him : d.image = "") (hurl : d.url ≠ "") (hid : d.id ≠ "")
    (hdoc : net.fetchDoc d.url = .ok doc)
    (hsel : absolutizeJ resolve (chainResult resolve hostnameOf doc d.url)
      (some d.url) = some u)
    (htrk : isTrackingPixelUrl u = false)
    (hbuf : net.getBuffer u = .ok buf) :
    (∀ m : Meta, truthyDim m.width = false ∨ truthyDim m.height = false →
        degenerateMeta (some m) = false)
    ∧ (∀ om : Option Meta, degenerateMeta om = true ↔
        (om = none ∨ ∃ w h, om = some ⟨some w, some h⟩ ∧ w ≠ 0 ∧ h ≠ 0 ∧
          w * h < 10000))
    ∧ (∀ m : Meta, net.metadata buf = some m →
        (truthyDim m.width = false ∨ truthyDim m.height = false) →
        (processDeal resolve hostnameOf net d).fallbackScan = false ∧
        (processDeal resolve hostnameOf net d).downloads = [u]) := by
  have heq : processDeal resolve hostnameOf net d
      = validateAndFinish resolve net d doc u buf :=
    (processDeal_reach resolve hostnameOf net d doc him hurl hid hdoc).trans
      (processWithDoc_reach resolve hostnameOf net d doc u buf hsel htrk hbuf)
  refine ⟨?_, ?_, ?_⟩
  · intro m hm
    rcases hm with hm | hm <;> simp [degenerateMeta, hm]
  · intro om
    cases om with
    | none => simp [degenerateMeta]
    | some m =>
      obtain ⟨ow, oh⟩ := m
      cases ow with
      | none => simp [degenerateMeta, truthyDim]
      | some w =>
        cases oh with
        | none => simp [degenerateMeta, truthyDim]
        | some h =>
          simp only [degenerateMeta, truthyDim, Bool.and_eq_true,
            decide_eq_true_eq, Option.getD_some, Option.some.injEq,
            Meta.mk.injEq, reduceCtorEq, false_or]
          constructor
          · rintro ⟨⟨hw, hh⟩, hlt⟩
            exact ⟨w, h, ⟨rfl, rfl⟩, hw, hh, hlt⟩
          · rintro ⟨w1, h1, ⟨rfl, rfl⟩, hw, hh, hlt⟩
            exact ⟨⟨hw, hh⟩, hlt⟩
  · intro m hm hdim
    have hdeg : degenerateMeta (net.metadata buf) = false := by
      rw [hm]
      rcases hdim with h | h <;> simp [degenerateMeta, h]
    rw [heq]
    exact ⟨by rw [vaf_fallbackScan, hdeg],
      by rw [vaf_nondeg resolve net d doc u buf hdeg, finishStep_downloads]⟩

/-- Witness for C10: a decode with width 5 and no height triggers no
fallback and leaves the single original download. -/
theorem metadata_partial_dims_not_degenerate_instance :
    (processDeal resolveSimple hostnameSimple netNoHeight dealPending).fallbackScan
      = false
    ∧ (processDeal resolveSimple hostnameSimple netNoHeight dealPending).downloads
      = ["https://example.com/a.jpg"] := by
  have h := metadata_partial_dims_not_degenerate resolveSimple hostnameSimple
    netNoHeight dealPending docOgPlusImg "https://example.com/a.jpg"
    ("https://example.com/a.jpg" : Buf)
    rfl (by decide) (by decide) rfl rfl (by decide) rfl
  exact h.2.2 ⟨some 5, none⟩ rfl (Or.inr rfl)

/-- Claim C5: a failure at any stage of one record leaves that record
unchanged (whenever the iteration does not fully succeed the record is
returned exactly as it came) and never prevents the processing of
subsequent records: the loop result over any concatenation is the
concatenation of the independent per-record results. -/
theorem record_failure_isolated (resolve : String → Option String → Option String)
    (hostnameOf : String → Option String) :
    (∀ (net : Net) (d : Deal), (processDeal resolve hostnameOf net d).ok = false →
        (processDeal resolve hostnameOf net d).deal = d)
    ∧ (∀ (net : Net) (ds₁ ds₂ : List Deal),
        (runLoop resolve hostnameOf net (ds₁ ++ ds₂)).deals =
          (runLoop resolve hostnameOf net ds₁).deals
            ++ (runLoop resolve hostnameOf net ds₂).deals) := by
  constructor
  · intro net d hok
    rcases processDeal_deal_cases resolve hostnameOf net d with ⟨_, h⟩ | ⟨h1, _⟩
    · exact h
    · rw [hok] at h1
      exact absurd h1 Bool.false_ne_true
  · intro net ds₁ ds₂
    rw [runLoop_append]

/-- Witness for C5: a record whose page fetch fails with a 404 is
returned unchanged. -/
theorem record_failure_isolated_instance :
    (processDeal resolveSimple hostnameSimple netFetchFail dealPending).deal
      = dealPending :=
  (record_failure_isolated resolveSimple hostnameSimple).1 netFetchFail
    dealPending rfl

/-- Claim C6: the catalog store is rewritten (in full, exactly once, at
the end of the run, as modelled by the single catalogWritten flag set
after the loop) if and only if at least one record changed, which holds
exactly when the final record list differs from the input; a run in
which every record is skipped or fails writes nothing. -/
theorem catalog_write_iff_changed (resolve : String → Option String → Option String)
    (hostnameOf : String → Option String) (net : Net) (ds : List Deal) :
    ((runDeals resolve hostnameOf net ds).catalogWritten = true ↔
      (runDeals resolve hostnameOf net ds).deals ≠ ds)
    ∧ (runDeals resolve hostnameOf net ds).catalogWritten
        = (runDeals resolve hostnameOf net ds).changed :=
  ⟨runLoop_changed_iff resolve hostnameOf net ds, rfl⟩

/-- Claim C7: every record whose image field is non-empty at the start
of a run is left completely untouched, with no page fetch and no
download; consequently a run over a catalog in which every record
already has an image (as after a fully successful first run) changes
nothing, fetches nothing, downloads nothing and writes no catalog. -/
theorem enriched_records_untouched (resolve : String → Option String → Option String)
    (hostnameOf : String → Option String) :
    (∀ (net : Net) (d : Deal), d.image ≠ "" →
        processDeal resolve hostnameOf net d = ⟨d, false, [], [], false⟩)
    ∧ (∀ (net : Net) (ds : List Deal), (∀ d ∈ ds, d.image ≠ "") →
        runDeals resolve hostnameOf net ds = ⟨ds, false, false, [], []⟩) := by
  constructor
  · intro net d h
    exact processDeal_skip_image resolve hostnameOf net d h
  · intro net ds h
    unfold runDeals
    rw [runLoop_all_enriched resolve hostnameOf net ds h]

/-- Witness for C7: a one-record catalog whose record is already
enriched is a complete no-op. -/
theorem enriched_records_untouched_instance :
    runDeals resolveSimple hostnameSimple netDataOg [dealDone]
      = ⟨[dealDone], false, false, [], []⟩ :=
  (enriched_records_untouched resolveSimple hostnameSimple).2 netDataOg [dealDone]
    (by intro d hd
        rw [List.mem_singleton] at hd
        rw [hd]
        decide)

end FetchDealImages
